import Mathlib

/-!
Verification of the transformation-cache engine of `llama_index/ingestion/pipeline.py`.

The development shallowly embeds the source file's core functions:

* `remove_unstable_values` (source lines 69-77): a regex substitution removing
  opaque runtime-object-reference tokens from a serialized configuration string.
  The Python pattern is the raw string given on line 76 of the source,
  matching a bracketed token of shape `<NAME at 0xADDR>`.  The embedding models
  Python `re.sub` for exactly this pattern: scan positions left-to-right, at
  each position attempt a greedy match (the `+`-quantified character class
  consumes maximally and backtracks), replace each non-overlapping match by
  the empty string, and resume scanning after the match.  Character classes
  are modelled over ASCII (the inputs of interest are ASCII).
* `get_transformation_hash` (lines 80-91): SHA-256, implemented concretely
  below (padding, schedule, compression; round constants are derived from the
  fractional parts of the cube/square roots of the first primes, as in the
  SHA-256 standard), of the UTF-8 encoding of the concatenation of the batch's
  contents and the cleaned configuration string.
* `run_transformations` (lines 94-126) and `arun_transformations`
  (lines 129-162): the sequential and concurrent executors.  They are embedded
  with explicit cache-state passing (the Python cache object is mutated in
  place) plus a counter of how many times a transformation was applied, which
  instruments the `transform(nodes)` / `await transform.acall(nodes)` calls.
* `IngestionPipeline.run` / `IngestionPipeline.arun` (lines 492-562): input
  assembly, executor invocation, and vector-store forwarding.
* the guard logic of `IngestionPipeline.from_pipeline_name` (lines 280-295).

Collaborators that the source file imports but that are not part of the given
sources (`IngestionCache`, `BaseNode.get_content`, `TransformComponent.to_dict`,
readers, vector stores) are modelled from the spec; each such definition's doc
comment says so explicitly.
-/

/-! ## SHA-256 over byte lists -/

/-- Reduce a natural number to a 32-bit word. -/
def w32 (x : Nat) : Nat := x % 4294967296

/-- Right rotation of a 32-bit word. -/
def rotr32 (n x : Nat) : Nat := w32 ((x >>> n) ||| (x <<< (32 - n)))

/-- Bitwise complement of a 32-bit word. -/
def not32 (x : Nat) : Nat := 4294967295 - w32 x

/-- SHA-256 `Ch` function. -/
def shaCh (x y z : Nat) : Nat := (x &&& y) ^^^ (not32 x &&& z)

/-- SHA-256 `Maj` function. -/
def shaMaj (x y z : Nat) : Nat := (x &&& y) ^^^ (x &&& z) ^^^ (y &&& z)

/-- SHA-256 big sigma-0. -/
def bigSigma0 (x : Nat) : Nat := rotr32 2 x ^^^ rotr32 13 x ^^^ rotr32 22 x

/-- SHA-256 big sigma-1. -/
def bigSigma1 (x : Nat) : Nat := rotr32 6 x ^^^ rotr32 11 x ^^^ rotr32 25 x

/-- SHA-256 small sigma-0. -/
def smallSigma0 (x : Nat) : Nat := rotr32 7 x ^^^ rotr32 18 x ^^^ (x >>> 3)

/-- SHA-256 small sigma-1. -/
def smallSigma1 (x : Nat) : Nat := rotr32 17 x ^^^ rotr32 19 x ^^^ (x >>> 10)

/-- Primality test by trial division (used only to derive the SHA constants). -/
def isPrimeNat (n : Nat) : Bool :=
  decide (2 ≤ n) && (List.range n).all fun d => decide (d < 2) || decide (n % d ≠ 0)

/-- The first 64 primes, 2 .. 311 (the 64th prime is 311 < 400). -/
def primes64 : List Nat := ((List.range 400).filter isPrimeNat).take 64

/-- Binary search for the integer cube root, with explicit fuel.  The
invariant is `lo ^ 3 ≤ m`; `fuel` bounds the number of halvings. -/
def cbrtAux (m : Nat) : Nat → Nat → Nat → Nat
  | lo, _, 0 => lo
  | lo, hi, fuel + 1 =>
    if hi ≤ lo then lo
    else
      let mid := (lo + hi + 1) / 2
      if mid * mid * mid ≤ m then cbrtAux m mid hi fuel else cbrtAux m lo (mid - 1) fuel

/-- Integer cube root: the greatest `r` with `r ^ 3 ≤ m`. -/
def natCbrt (m : Nat) : Nat := cbrtAux m 0 (m + 1) 256

/-- First 32 bits of the fractional part of the cube root of `p`:
`floor (2 ^ 32 * cbrt p) mod 2 ^ 32`. -/
def fracCbrtWord (p : Nat) : Nat := w32 (natCbrt (p * 2 ^ 96))

/-- First 32 bits of the fractional part of the square root of `p`. -/
def fracSqrtWord (p : Nat) : Nat := w32 (Nat.sqrt (p * 2 ^ 64))

/-- The 64 SHA-256 round constants: fractional parts of the cube roots of the
first 64 primes. -/
def roundConsts : List Nat := primes64.map fracCbrtWord

/-- SHA-256 working state: eight 32-bit words. -/
structure Hash8 where
  a : Nat
  b : Nat
  c : Nat
  d : Nat
  e : Nat
  f : Nat
  g : Nat
  h : Nat

/-- Initial SHA-256 state: fractional parts of the square roots of the first
eight primes. -/
def initHash : Hash8 :=
  ⟨fracSqrtWord 2, fracSqrtWord 3, fracSqrtWord 5, fracSqrtWord 7,
   fracSqrtWord 11, fracSqrtWord 13, fracSqrtWord 17, fracSqrtWord 19⟩

/-- One SHA-256 compression round. -/
def compressRound (st : Hash8) (k w : Nat) : Hash8 :=
  let t1 := w32 (st.h + bigSigma1 st.e + shaCh st.e st.f st.g + k + w)
  let t2 := w32 (bigSigma0 st.a + shaMaj st.a st.b st.c)
  ⟨w32 (t1 + t2), st.a, st.b, st.c, w32 (st.d + t1), st.e, st.f, st.g⟩

/-- Convert a byte list into big-endian 32-bit words (groups of four). -/
def wordsOfBytes : List Nat → List Nat
  | b0 :: b1 :: b2 :: b3 :: rest =>
    (b0 * 16777216 + b1 * 65536 + b2 * 256 + b3) :: wordsOfBytes rest
  | _ => []

/-- Extend a 16-word message schedule by `n` further words. -/
def extendSchedule : List Nat → Nat → List Nat
  | ws, 0 => ws
  | ws, n + 1 =>
    let i := ws.length
    let nw := w32 (ws.getD (i - 16) 0 + smallSigma0 (ws.getD (i - 15) 0)
      + ws.getD (i - 7) 0 + smallSigma1 (ws.getD (i - 2) 0))
    extendSchedule (ws ++ [nw]) n

/-- Process one 64-byte block. -/
def processBlock (st : Hash8) (block : List Nat) : Hash8 :=
  let ws := extendSchedule (wordsOfBytes block) 48
  let fin := (roundConsts.zip ws).foldl (fun s kw => compressRound s kw.1 kw.2) st
  ⟨w32 (st.a + fin.a), w32 (st.b + fin.b), w32 (st.c + fin.c), w32 (st.d + fin.d),
   w32 (st.e + fin.e), w32 (st.f + fin.f), w32 (st.g + fin.g), w32 (st.h + fin.h)⟩

/-- Split a byte list into 64-byte blocks. -/
def toBlocks (l : List Nat) : List (List Nat) :=
  match l with
  | [] => []
  | x :: xs => (x :: xs).take 64 :: toBlocks ((x :: xs).drop 64)
termination_by l.length
decreasing_by
  simp [List.length_drop]
  omega

/-- Big-endian 8-byte encoding of a (64-bit) length. -/
def be64 (n : Nat) : List Nat :=
  [n / 2 ^ 56 % 256, n / 2 ^ 48 % 256, n / 2 ^ 40 % 256, n / 2 ^ 32 % 256,
   n / 2 ^ 24 % 256, n / 2 ^ 16 % 256, n / 2 ^ 8 % 256, n % 256]

/-- SHA-256 message padding: a `0x80` byte, zeros to 56 mod 64, and the
bit length as a big-endian 64-bit integer. -/
def padMessage (msg : List Nat) : List Nat :=
  msg ++ 128 :: List.replicate ((119 - msg.length % 64) % 64) 0 ++ be64 (8 * msg.length)

/-- Lowercase hexadecimal digit. -/
def hexDigitChar (n : Nat) : Char :=
  if n < 10 then Char.ofNat (48 + n) else Char.ofNat (87 + n)

/-- Eight lowercase hex digits of a 32-bit word, most significant first. -/
def toHex8 (x : Nat) : List Char :=
  [hexDigitChar (x / 2 ^ 28 % 16), hexDigitChar (x / 2 ^ 24 % 16),
   hexDigitChar (x / 2 ^ 20 % 16), hexDigitChar (x / 2 ^ 16 % 16),
   hexDigitChar (x / 2 ^ 12 % 16), hexDigitChar (x / 2 ^ 8 % 16),
   hexDigitChar (x / 2 ^ 4 % 16), hexDigitChar (x % 16)]

/-- SHA-256 of a byte list, as a lowercase hex digest string
(`hashlib.sha256(...).hexdigest()`). -/
def sha256hex (bytes : List Nat) : String :=
  let st := (toBlocks (padMessage bytes)).foldl processBlock initHash
  ⟨([st.a, st.b, st.c, st.d, st.e, st.f, st.g, st.h].map toHex8).flatten⟩

/-- UTF-8 encoding of a single character (standard 1-4 byte encoding;
`Char` excludes surrogates). -/
def utf8Bytes (c : Char) : List Nat :=
  let n := c.toNat
  if n < 128 then [n]
  else if n < 2048 then [192 + n / 64, 128 + n % 64]
  else if n < 65536 then [224 + n / 4096, 128 + n / 64 % 64, 128 + n % 64]
  else [240 + n / 262144, 128 + n / 4096 % 64, 128 + n / 64 % 64, 128 + n % 64]

/-- UTF-8 encoding of a string (`str.encode("utf-8")`). -/
def utf8Encode (s : String) : List Nat := (s.data.map utf8Bytes).flatten

/-! ## The regex `<[\w\s_\. ]+ at 0x[a-z0-9]+>` and `re.sub` (source lines 69-77) -/

/-- Python `\w`, restricted to ASCII: letters, digits, underscore. -/
def isWordChar (c : Char) : Bool := c.isAlphanum || c = '_'

/-- Python `\s`, restricted to ASCII: space, tab, newline, carriage return,
vertical tab, form feed. -/
def isSpaceChar (c : Char) : Bool :=
  c = ' ' || c = '\t' || c = '\n' || c = '\r' || c = '\x0b' || c = '\x0c'

/-- The character class of the pattern: word characters, whitespace,
underscore, dot and space. -/
def isClassChar (c : Char) : Bool := isWordChar c || isSpaceChar c || c = '.' || c = ' '

/-- The class `[a-z0-9]` of the address part of the pattern. -/
def isHexTail (c : Char) : Bool := (decide ('a' ≤ c) && decide (c ≤ 'z')) || c.isDigit

/-- The literal characters of the middle of the pattern, `" at 0x"`. -/
def at0xChars : List Char := [' ', 'a', 't', ' ', '0', 'x']

/-- Attempt to match the continuation `" at 0x" [a-z0-9]+ ">"` at the front of
`l`; on success return the number of characters consumed.  The `[a-z0-9]+`
quantifier is effectively deterministic here: only its maximal run can be
followed by `>`. -/
def contAt (l : List Char) : Option Nat :=
  if l.take 6 = at0xChars then
    let hexRun := (l.drop 6).takeWhile isHexTail
    if 0 < hexRun.length then
      match (l.drop 6).drop hexRun.length with
      | '>' :: _ => some (6 + hexRun.length + 1)
      | _ => none
    else none
  else none

/-- Greedy backtracking for the `[\w\s_\. ]+` quantifier: with `l` the text
after the `<`, try consuming `p, p-1, ..., 1` class characters (longest first)
and matching the continuation after them; return the total consumed length. -/
def tryQuant (l : List Char) : Nat → Option Nat
  | 0 => none
  | p + 1 =>
    match contAt (l.drop (p + 1)) with
    | some k => some (p + 1 + k)
    | none => tryQuant l p

/-- Attempt to match the whole pattern at the front of `l`; on success return
the length of the match. -/
def matchAt (l : List Char) : Option Nat :=
  match l with
  | [] => none
  | c :: rest =>
    if c = '<' then
      match tryQuant rest (rest.takeWhile isClassChar).length with
      | some m => some (1 + m)
      | none => none
    else none

/-- The scanning loop of `re.sub` with empty replacement: at each position try
a match; on success drop the matched characters and resume after them, else
keep the character and move on.  (`matchAt` always returns a length of at
least 9, so dropping `m - 1` of `rest` equals dropping `m` of `c :: rest`.) -/
def subScan (l : List Char) : List Char :=
  match l with
  | [] => []
  | c :: rest =>
    match matchAt (c :: rest) with
    | some m => subScan (rest.drop (m - 1))
    | none => c :: subScan rest
termination_by l.length
decreasing_by
  · simp [List.length_drop]
    omega
  · simp

/-- Embedding of `remove_unstable_values` (source lines 69-77). -/
def removeUnstableValues (s : String) : String := ⟨subScan s.data⟩

/-! ## Data model -/

/-- A record flowing through the pipeline (`BaseNode`).  The engine touches
only the content-with-metadata string and the vector attribute; the embedding
field stands for Python's `Optional[List[float]]` (its numeric type is
irrelevant to the engine, which only tests it against `None`). -/
structure Node where
  id_ : String
  text : String
  metadata : List (String × String)
  embedding : Option (List Int)
deriving DecidableEq

/-- Modelled from the spec: `BaseNode.get_content(metadata_mode=MetadataMode.ALL)`
is not under src/; the spec (section 4.1) describes it as the record's content
plus all metadata, concatenated in a canonical, order-preserving way whose
exact separators are unspecified. -/
def Node.getContentAll (n : Node) : String :=
  String.join (n.metadata.map fun kv => kv.1 ++ ": " ++ kv.2) ++ "\n\n" ++ n.text

/-- A pipeline stage (`TransformComponent`).  `configStr` models
`str(transformation.to_dict())`, the serialized configuration string
(`to_dict` is not under src/; the spec, section 3, calls it the
transformation's deterministic serializable configuration).  `call` models
the blocking `__call__` and `acall` the non-blocking `acall`; the `**kwargs`
option bag is forwarded uninterpreted by the engine and is omitted. -/
structure TransformComponent where
  configStr : String
  call : List Node → List Node
  acall : List Node → List Node

/-- The `nodes_str` of `get_transformation_hash`:
`"".join([str(node.get_content(metadata_mode=MetadataMode.ALL)) for node in nodes])`. -/
def nodesStr (nodes : List Node) : String :=
  String.join (nodes.map fun n => n.getContentAll)

/-- Embedding of `get_transformation_hash` (source lines 80-91). -/
def getTransformationHash (nodes : List Node) (transformation : TransformComponent) : String :=
  let nodes_str := nodesStr nodes
  let transform_string := removeUnstableValues transformation.configStr
  sha256hex (utf8Encode (nodes_str ++ transform_string))

/-! ## Cache (modelled from the spec) and the executors (source lines 94-162) -/

/-- Modelled from the spec: `IngestionCache` (`llama_index/ingestion/cache.py`
is not under src/).  Section 4.2 of the spec: a namespaced key-value store
mapping a fingerprint to a stored batch, partitioned by an optional collection
name; `put` overwrites unconditionally (last-writer-wins); a `get` miss is an
absent result, never an error.  Entries are an association list with newest
first, so a prepending `put` overwrites and `get` returns the newest entry. -/
structure IngestionCache where
  entries : List (Option String × String × List Node)

/-- Cache lookup: first (newest) entry under the collection and key. -/
def IngestionCache.get (c : IngestionCache) (key : String)
    (collection : Option String) : Option (List Node) :=
  (c.entries.find? fun e => e.1 == collection && e.2.1 == key).map fun e => e.2.2

/-- Cache store: unconditional overwrite under the collection and key. -/
def IngestionCache.put (c : IngestionCache) (key : String) (nodes : List Node)
    (collection : Option String) : IngestionCache :=
  ⟨(collection, key, nodes) :: c.entries⟩

/-- Embedding of `run_transformations` (source lines 94-126).  The cache is
threaded explicitly (Python mutates the cache object in place); the final
`Nat` counts how many times a transformation was applied (the
`transform(nodes, **kwargs)` calls), instrumenting the source's only
side-effecting step.  The `in_place` flag only controls Python list aliasing
and has no observable effect in a pure embedding. -/
def runTransformations :
    List Node → List TransformComponent → Option IngestionCache → Option String →
    List Node × Option IngestionCache × Nat
  | nodes, [], cache, _ => (nodes, cache, 0)
  | nodes, transform :: rest, cache, coll =>
    match cache with
    | some c =>
      let h := getTransformationHash nodes transform
      match c.get h coll with
      | some cached => runTransformations cached rest (some c) coll
      | none =>
        let out := transform.call nodes
        let r := runTransformations out rest (some (c.put h out coll)) coll
        (r.1, r.2.1, r.2.2 + 1)
    | none =>
      let out := transform.call nodes
      let r := runTransformations out rest none coll
      (r.1, r.2.1, r.2.2 + 1)

/-- Embedding of `arun_transformations` (source lines 129-162): identical to
`runTransformations` except that each stage's awaited `acall` is used; the
stages are still applied strictly sequentially. -/
def arunTransformations :
    List Node → List TransformComponent → Option IngestionCache → Option String →
    List Node × Option IngestionCache × Nat
  | nodes, [], cache, _ => (nodes, cache, 0)
  | nodes, transform :: rest, cache, coll =>
    match cache with
    | some c =>
      let h := getTransformationHash nodes transform
      match c.get h coll with
      | some cached => arunTransformations cached rest (some c) coll
      | none =>
        let out := transform.acall nodes
        let r := arunTransformations out rest (some (c.put h out coll)) coll
        (r.1, r.2.1, r.2.2 + 1)
    | none =>
      let out := transform.acall nodes
      let r := arunTransformations out rest none coll
      (r.1, r.2.1, r.2.2 + 1)

/-! ## Pipeline façade (source lines 165-562) -/

/-- Modelled from the spec: the sink (`BasePydanticVectorStore`) is not under
src/; section 6 of the spec describes its `add`/`async_add` operation as
receiving the forwarded records.  The model accumulates added records in
order. -/
structure VectorStore where
  stored : List Node

/-- Sink `add`: append the forwarded records in order (`async_add` has the
same observable effect). -/
def VectorStore.add (vs : VectorStore) (ns : List Node) : VectorStore :=
  ⟨vs.stored ++ ns⟩

/-- Embedding of the `IngestionPipeline` state used by `run`/`arun`.  The
`reader` field models `ReaderConfig` by the document list its `read()`
returns (readers are not under src/; the spec treats them as a source of
input records).  Platform/registration fields are not used by `run`/`arun`
and are omitted. -/
structure IngestionPipeline where
  transformations : List TransformComponent
  documents : Option (List Node)
  reader : Option (List Node)
  vector_store : Option VectorStore
  cache : IngestionCache
  disable_cache : Bool

/-- Input assembly of `run`/`arun` (source lines 500-511 and 535-546):
explicit documents, then explicit nodes, then the pipeline's documents, then
the reader's output. -/
def pipelineInputNodes (p : IngestionPipeline)
    (documents nodes : Option (List Node)) : List Node :=
  (documents.getD []) ++ (nodes.getD []) ++ (p.documents.getD []) ++ (p.reader.getD [])

/-- Embedding of `IngestionPipeline.run` (source lines 492-525): assemble the
input batch, invoke the sequential executor with the cache unless
`disable_cache`, forward the records with a populated embedding to the vector
store's `add`, and return the full transformed batch.  The returned pipeline
carries the mutated cache and vector store. -/
def IngestionPipeline.run (p : IngestionPipeline)
    (documents nodes : Option (List Node)) (cacheCollection : Option String) :
    List Node × IngestionPipeline :=
  let inputNodes := pipelineInputNodes p documents nodes
  let r := runTransformations inputNodes p.transformations
    (if p.disable_cache then none else some p.cache) cacheCollection
  let p1 := match r.2.1 with
    | some c => { p with cache := c }
    | none => p
  let p2 := match p1.vector_store with
    | some vs => { p1 with vector_store := some (vs.add (r.1.filter fun n => n.embedding.isSome)) }
    | none => p1
  (r.1, p2)

/-- Embedding of `IngestionPipeline.arun` (source lines 527-562): identical to
`run` but through the concurrent executor and the sink's `async_add`. -/
def IngestionPipeline.arun (p : IngestionPipeline)
    (documents nodes : Option (List Node)) (cacheCollection : Option String) :
    List Node × IngestionPipeline :=
  let inputNodes := pipelineInputNodes p documents nodes
  let r := arunTransformations inputNodes p.transformations
    (if p.disable_cache then none else some p.cache) cacheCollection
  let p1 := match r.2.1 with
    | some c => { p with cache := c }
    | none => p
  let p2 := match p1.vector_store with
    | some vs => { p1 with vector_store := some (vs.add (r.1.filter fun n => n.embedding.isSome)) }
    | none => p1
  (r.1, p2)

/-! ## Exception-aware embedding of the executor

Python exceptions raised inside `run_transformations` are not caught by the
executor (the source has no try/except); they propagate to the caller, while
the mutable cache object keeps the state it had when the exception was
raised.  The `Fallible` namespace embeds exactly this semantics: cache
operations and transformation applications return `Except`, the executor
propagates the first error, and the cache state at the moment of the error is
returned alongside. -/

namespace Fallible

/-- Errors that can arise during a pipeline run: the spec's
`CacheUnavailable` backend-connectivity failure (section 7), or an error
raised inside a transformation. -/
inductive PipelineError where
  | cacheUnavailable : PipelineError
  | transformError : String → PipelineError
deriving DecidableEq

/-- Modelled from the spec: a cache whose backend operations can fail with
`CacheUnavailable` (section 4.2 and section 7 of the spec; the cache backend
is not under src/).  `getAvailable` / `putAvailable` model backend
connectivity for the respective operation. -/
structure FallibleCache where
  entries : List (Option String × String × List Node)
  getAvailable : Bool
  putAvailable : Bool
deriving DecidableEq

/-- Fallible cache lookup: `CacheUnavailable` when the backend is down,
otherwise the newest entry under the collection and key (or a miss). -/
def FallibleCache.get (c : FallibleCache) (key : String)
    (collection : Option String) : Except PipelineError (Option (List Node)) :=
  if c.getAvailable then
    .ok ((c.entries.find? fun e => e.1 == collection && e.2.1 == key).map fun e => e.2.2)
  else .error .cacheUnavailable

/-- Fallible cache store: `CacheUnavailable` when the backend is down,
otherwise unconditional overwrite. -/
def FallibleCache.put (c : FallibleCache) (key : String) (nodes : List Node)
    (collection : Option String) : Except PipelineError FallibleCache :=
  if c.putAvailable then
    .ok ⟨(collection, key, nodes) :: c.entries, c.getAvailable, c.putAvailable⟩
  else .error .cacheUnavailable

/-- A pipeline stage whose application can raise. -/
structure TransformComponent where
  configStr : String
  call : List Node → Except PipelineError (List Node)

/-- The fingerprint of `get_transformation_hash`, over fallible stages (same
computation as the pure `getTransformationHash`). -/
def getTransformationHash (nodes : List Node) (transformation : TransformComponent) : String :=
  sha256hex (utf8Encode (nodesStr nodes ++ removeUnstableValues transformation.configStr))

/-- Embedding of `run_transformations` under Python exception semantics: the
source has no try/except, so the first error from a cache operation or a
transformation aborts the loop and propagates; the cache state at that moment
is returned alongside the outcome. -/
def runTransformations :
    List Node → List TransformComponent → Option FallibleCache → Option String →
    Except PipelineError (List Node) × Option FallibleCache
  | nodes, [], cache, _ => (.ok nodes, cache)
  | nodes, transform :: rest, cache, coll =>
    match cache with
    | none =>
      match transform.call nodes with
      | .error e => (.error e, none)
      | .ok out => runTransformations out rest none coll
    | some c =>
      match c.get (getTransformationHash nodes transform) coll with
      | .error e => (.error e, some c)
      | .ok (some cached) => runTransformations cached rest (some c) coll
      | .ok none =>
        match transform.call nodes with
        | .error e => (.error e, some c)
        | .ok out =>
          match c.put (getTransformationHash nodes transform) out coll with
          | .error e => (.error e, some c)
          | .ok c2 => runTransformations out rest (some c2) coll

end Fallible

/-! ## Guard logic of `IngestionPipeline.from_pipeline_name` (source lines 267-342) -/

/-- Python error outcomes of the platform-lookup prologue of
`from_pipeline_name`: the explicit `ValueError` raises, or the `IndexError`
from indexing `[0]` into an empty list. -/
inductive PyError where
  | valueError : String → PyError
  | indexError : PyError
deriving DecidableEq

/-- Embedding of the guard-and-select prologue of
`IngestionPipeline.from_pipeline_name` (source lines 280-295): the platform
client's query results are parameters; the function re-traces the source's
`if len(...) < 0: raise ValueError` guards and the `[0]` indexing, which
raises `IndexError` on an empty list. -/
def fromPipelineNameSelect {α β : Type} (projects : List α) (pipelines : List β) :
    Except PyError (α × β) :=
  if projects.length < 0 then .error (.valueError "Project not found")
  else
    match projects.head? with
    | none => .error .indexError
    | some project =>
      if pipelines.length < 0 then .error (.valueError "Pipeline not found")
      else
        match pipelines.head? with
        | none => .error .indexError
        | some pipeline => .ok (project, pipeline)

/-! ## Helper lemmas: cache -/

theorem IngestionCache.get_put_same (c : IngestionCache) (k : String) (v : List Node)
    (coll : Option String) : (c.put k v coll).get k coll = some v := by
  simp [IngestionCache.get, IngestionCache.put, List.find?]

theorem IngestionCache.get_put_ne (c : IngestionCache) (k k' : String) (v : List Node)
    (coll : Option String) (h : k' ≠ k) : (c.put k v coll).get k' coll = c.get k' coll := by
  have hb : (k == k') = false := beq_eq_false_iff_ne.mpr (fun he => h he.symm)
  simp [IngestionCache.get, IngestionCache.put, List.find?, hb]

/-! ## Helper lemmas: list splitting -/

theorem drop_append_add {α : Type} (l1 l2 : List α) (n : Nat) :
    (l1 ++ l2).drop (l1.length + n) = l2.drop n := by
  induction l1 with
  | nil => simp
  | cons a t ih => simp [Nat.succ_add, ih]

theorem takeWhile_append_all (p : Char → Bool) (l1 l2 : List Char)
    (h : ∀ c ∈ l1, p c = true) : (l1 ++ l2).takeWhile p = l1 ++ l2.takeWhile p := by
  induction l1 with
  | nil => simp
  | cons a t ih =>
    have ha := h a (List.mem_cons_self a t)
    simp [List.takeWhile_cons, ha, ih (fun c hc => h c (List.mem_cons_of_mem _ hc))]

/-! ## Helper lemmas: the token matcher -/

theorem matchAt_cons_ne (c : Char) (l : List Char) (h : c ≠ '<') :
    matchAt (c :: l) = none := by
  simp [matchAt, h]

theorem contAt_cons_ne_space (c : Char) (l : List Char) (h : c ≠ ' ') :
    contAt (c :: l) = none := by
  rw [contAt, if_neg]
  intro he
  rw [show (c :: l).take 6 = c :: l.take 5 from rfl] at he
  simp only [at0xChars] at he
  injection he with h1 _
  exact h h1

theorem contAt_space_cons_ne (c : Char) (l : List Char) (h : c ≠ 'a') :
    contAt (' ' :: c :: l) = none := by
  rw [contAt, if_neg]
  intro he
  rw [show (' ' :: c :: l).take 6 = ' ' :: c :: l.take 4 from rfl] at he
  simp only [at0xChars] at he
  injection he with _ h2
  injection h2 with h1 _
  exact h h1

theorem isHexTail_ne_space {c : Char} (h : isHexTail c = true) : c ≠ ' ' := by
  intro he
  subst he
  simp [isHexTail] at h

theorem contAt_in_addr (addr post : List Char) (ha : ∀ c ∈ addr, isHexTail c = true) :
    ∀ i, i ≤ addr.length → contAt ((addr ++ '>' :: post).drop i) = none := by
  induction addr with
  | nil =>
    intro i hi
    simp only [List.length_nil, Nat.le_zero] at hi
    subst hi
    exact contAt_cons_ne_space '>' post (by decide)
  | cons c t ih =>
    intro i hi
    match i with
    | 0 =>
      exact contAt_cons_ne_space c (t ++ '>' :: post)
        (isHexTail_ne_space (ha c (List.mem_cons_self c t)))
    | j + 1 =>
      have : ((c :: t) ++ '>' :: post).drop (j + 1) = (t ++ '>' :: post).drop j := rfl
      rw [this]
      exact ih (fun x hx => ha x (List.mem_cons_of_mem _ hx)) j (Nat.le_of_succ_le_succ hi)

theorem isClassChar_of_isHexTail {c : Char} (h : isHexTail c = true) : isClassChar c = true := by
  have hw : isWordChar c = true := by
    simp only [isHexTail, Bool.or_eq_true, Bool.and_eq_true, decide_eq_true_eq] at h
    simp only [isWordChar, Char.isAlphanum, Char.isAlpha, Char.isLower, Bool.or_eq_true,
      Bool.and_eq_true, decide_eq_true_eq]
    rcases h with ⟨h1, h2⟩ | h3
    · exact Or.inl (Or.inl (Or.inr ⟨h1, h2⟩))
    · exact Or.inl (Or.inr h3)
  simp [isClassChar, hw]

theorem contAt_at0x_region (addr post : List Char) (ha : ∀ c ∈ addr, isHexTail c = true) :
    ∀ j, 1 ≤ j → j ≤ 6 + addr.length →
    contAt ((at0xChars ++ (addr ++ '>' :: post)).drop j) = none := by
  intro j h1 h2
  rcases j with _ | _ | _ | _ | _ | _ | i
  · omega
  · exact contAt_cons_ne_space 'a' _ (by decide)
  · exact contAt_cons_ne_space 't' _ (by decide)
  · exact contAt_space_cons_ne '0' _ (by decide)
  · exact contAt_cons_ne_space '0' _ (by decide)
  · exact contAt_cons_ne_space 'x' _ (by decide)
  · have e : (at0xChars ++ (addr ++ '>' :: post)).drop (i + 6) =
        (addr ++ '>' :: post).drop i := by
      rw [show i + 6 = at0xChars.length + i by simp [at0xChars]; omega]
      exact drop_append_add _ _ _
    rw [e]
    exact contAt_in_addr addr post ha i (by omega)

theorem tryQuant_shift (l : List Char) (b m : Nat)
    (h : ∀ j, 1 ≤ j → j ≤ m → contAt (l.drop (b + j)) = none) :
    tryQuant l (b + m) = tryQuant l b := by
  induction m with
  | zero => rfl
  | succ m ih =>
    have hc : contAt (l.drop (b + m + 1)) = none := by
      have hh := h (m + 1) (by omega) (by omega)
      rwa [show b + (m + 1) = b + m + 1 by omega] at hh
    calc tryQuant l (b + (m + 1)) = tryQuant l (b + m) := by
          rw [show b + (m + 1) = b + m + 1 by omega]
          simp only [tryQuant, hc]
      _ = tryQuant l b := ih (fun j hj1 hj2 => h j hj1 (by omega))

theorem contAt_at0x (addr post : List Char) (han : addr ≠ [])
    (hac : ∀ c ∈ addr, isHexTail c = true) :
    contAt (at0xChars ++ (addr ++ '>' :: post)) = some (6 + addr.length + 1) := by
  have h1 : (at0xChars ++ (addr ++ '>' :: post)).take 6 = at0xChars :=
    List.take_left' rfl
  have h2 : (at0xChars ++ (addr ++ '>' :: post)).drop 6 = addr ++ '>' :: post :=
    List.drop_left' rfl
  have h3 : (addr ++ '>' :: post).takeWhile isHexTail = addr := by
    have hgt : isHexTail '>' = false := by decide
    rw [takeWhile_append_all _ _ _ hac]
    simp [List.takeWhile_cons, hgt]
  have h4 : (addr ++ '>' :: post).drop addr.length = '>' :: post := List.drop_left _ _
  simp only [contAt, h1, h2, h3, h4, if_pos, List.length_pos]
  rw [if_pos han]

theorem matchAt_token (body addr post : List Char) (hb : body ≠ [])
    (hbc : ∀ c ∈ body, isClassChar c = true) (han : addr ≠ [])
    (hac : ∀ c ∈ addr, isHexTail c = true) :
    matchAt ('<' :: (body ++ (at0xChars ++ (addr ++ '>' :: post)))) =
      some (body.length + addr.length + 8) := by
  have hat : ∀ c ∈ at0xChars, isClassChar c = true := by decide
  have hgtc : isClassChar '>' = false := by decide
  have htw : (body ++ (at0xChars ++ (addr ++ '>' :: post))).takeWhile isClassChar
      = body ++ (at0xChars ++ addr) := by
    rw [takeWhile_append_all _ _ _ hbc, takeWhile_append_all _ _ _ hat,
        takeWhile_append_all _ _ _ (fun c hc => isClassChar_of_isHexTail (hac c hc))]
    simp [List.takeWhile_cons, hgtc]
  have hlen : (body ++ (at0xChars ++ addr)).length = body.length + (6 + addr.length) := by
    simp [at0xChars]
    omega
  have hshift : tryQuant (body ++ (at0xChars ++ (addr ++ '>' :: post)))
      (body.length + (6 + addr.length))
      = tryQuant (body ++ (at0xChars ++ (addr ++ '>' :: post))) body.length := by
    apply tryQuant_shift
    intro j hj1 hj2
    rw [drop_append_add]
    exact contAt_at0x_region addr post hac j hj1 hj2
  obtain ⟨p, hp⟩ : ∃ p, body.length = p + 1 := by
    cases body with
    | nil => exact absurd rfl hb
    | cons x xs => exact ⟨xs.length, rfl⟩
  have hbase : tryQuant (body ++ (at0xChars ++ (addr ++ '>' :: post))) body.length
      = some (body.length + (6 + addr.length + 1)) := by
    rw [hp]
    have e : (body ++ (at0xChars ++ (addr ++ '>' :: post))).drop (p + 1)
        = at0xChars ++ (addr ++ '>' :: post) := by
      rw [← hp]
      exact List.drop_left _ _
    simp only [tryQuant, e, contAt_at0x addr post han hac]
  simp only [matchAt]
  rw [if_pos trivial, htw, hlen, hshift, hbase]
  show some (1 + (body.length + (6 + addr.length + 1))) = some (body.length + addr.length + 8)
  exact congrArg some (by omega)

theorem subScan_nil : subScan [] = [] := by
  simp [subScan]

theorem subScan_cons_eq (c : Char) (l : List Char) :
    subScan (c :: l) = match matchAt (c :: l) with
      | some m => subScan (l.drop (m - 1))
      | none => c :: subScan l := by
  rw [subScan]

theorem subScan_cons_none {c : Char} {l : List Char} (h : matchAt (c :: l) = none) :
    subScan (c :: l) = c :: subScan l := by
  rw [subScan_cons_eq, h]

theorem subScan_cons_some {c : Char} {l : List Char} {m : Nat}
    (h : matchAt (c :: l) = some m) : subScan (c :: l) = subScan (l.drop (m - 1)) := by
  rw [subScan_cons_eq, h]

theorem subScan_token_head (body addr post : List Char) (hb : body ≠ [])
    (hbc : ∀ c ∈ body, isClassChar c = true) (han : addr ≠ [])
    (hac : ∀ c ∈ addr, isHexTail c = true) :
    subScan ('<' :: (body ++ (at0xChars ++ (addr ++ '>' :: post)))) = subScan post := by
  rw [subScan_cons_some (matchAt_token body addr post hb hbc han hac)]
  congr 1
  rw [show body.length + addr.length + 8 - 1
      = body.length + (at0xChars.length + (addr.length + 1)) by simp [at0xChars]; omega]
  rw [drop_append_add, drop_append_add, drop_append_add]
  rfl

theorem subScan_token (pre body addr post : List Char)
    (hpre : ∀ c ∈ pre, c ≠ '<') (hb : body ≠ [])
    (hbc : ∀ c ∈ body, isClassChar c = true) (han : addr ≠ [])
    (hac : ∀ c ∈ addr, isHexTail c = true) :
    subScan (pre ++ '<' :: (body ++ (at0xChars ++ (addr ++ '>' :: post)))) =
      pre ++ subScan post := by
  induction pre with
  | nil => simpa using subScan_token_head body addr post hb hbc han hac
  | cons c t ih =>
    have hc : c ≠ '<' := hpre c (List.mem_cons_self c t)
    rw [List.cons_append, subScan_cons_none (matchAt_cons_ne c _ hc),
        ih (fun x hx => hpre x (List.mem_cons_of_mem _ hx))]
    rfl

/-! ## Helper lemmas: the executors -/

theorem run_preserves_get (coll : Option String) (k : String) (v : List Node) :
    ∀ (ts : List TransformComponent) (ns : List Node) (c : IngestionCache)
      (out : List Node) (copt : Option IngestionCache) (m : Nat),
    runTransformations ns ts (some c) coll = (out, copt, m) →
    c.get k coll = some v →
    ∃ cc, copt = some cc ∧ cc.get k coll = some v := by
  intro ts
  induction ts with
  | nil =>
    intro ns c out copt m hrun hget
    simp only [runTransformations] at hrun
    cases hrun
    exact ⟨c, rfl, hget⟩
  | cons t rest ih =>
    intro ns c out copt m hrun hget
    simp only [runTransformations] at hrun
    rcases hc : c.get (getTransformationHash ns t) coll with _ | cached
    · rw [hc] at hrun
      have hkne : k ≠ getTransformationHash ns t := by
        intro he
        rw [he, hc] at hget
        cases hget
      rcases hr : runTransformations (t.call ns) rest
          (some (c.put (getTransformationHash ns t) (t.call ns) coll)) coll with ⟨ro, co, mo⟩
      rw [hr] at hrun
      rw [Prod.mk.injEq, Prod.mk.injEq] at hrun
      obtain ⟨h1, h2, h3⟩ := hrun
      subst h1 h2
      exact ih (t.call ns) _ ro co mo hr
        (by rw [IngestionCache.get_put_ne _ _ _ _ _ hkne]; exact hget)
    · rw [hc] at hrun
      exact ih cached c out copt m hrun hget

theorem run_twice_cached :
    ∀ (ts : List TransformComponent) (ns : List Node) (c : IngestionCache)
      (coll : Option String) (out : List Node) (c' : IngestionCache) (m : Nat),
    runTransformations ns ts (some c) coll = (out, some c', m) →
    runTransformations ns ts (some c') coll = (out, some c', 0) := by
  intro ts
  induction ts with
  | nil =>
    intro ns c coll out c' m hrun
    simp only [runTransformations] at hrun ⊢
    cases hrun
    rfl
  | cons t rest ih =>
    intro ns c coll out c' m hrun
    simp only [runTransformations] at hrun
    rcases hc : c.get (getTransformationHash ns t) coll with _ | cached
    · rw [hc] at hrun
      rcases hr : runTransformations (t.call ns) rest
          (some (c.put (getTransformationHash ns t) (t.call ns) coll)) coll with ⟨ro, co, mo⟩
      rw [hr] at hrun
      rw [Prod.mk.injEq, Prod.mk.injEq] at hrun
      obtain ⟨h1, h2, h3⟩ := hrun
      subst h1 h2
      have hput : (c.put (getTransformationHash ns t) (t.call ns) coll).get
          (getTransformationHash ns t) coll = some (t.call ns) :=
        IngestionCache.get_put_same _ _ _ _
      obtain ⟨cc, hcc, hccget⟩ :=
        run_preserves_get coll (getTransformationHash ns t) (t.call ns) rest _ _ _ _ _ hr hput
      injection hcc with hcc'
      subst hcc'
      simp only [runTransformations, hccget]
      exact ih (t.call ns) _ coll ro c' mo hr
    · rw [hc] at hrun
      obtain ⟨cc, hcc, hccget⟩ :=
        run_preserves_get coll (getTransformationHash ns t) cached rest _ _ out (some c') m hrun hc
      injection hcc with hcc'
      subst hcc'
      simp only [runTransformations, hccget]
      exact ih cached c coll out c' m hrun

theorem run_no_cache :
    ∀ (ts : List TransformComponent) (ns : List Node) (coll : Option String),
    runTransformations ns ts none coll =
      (ts.foldl (fun b t => t.call b) ns, none, ts.length) := by
  intro ts
  induction ts with
  | nil => intro ns coll; rfl
  | cons t rest ih =>
    intro ns coll
    simp only [runTransformations, List.foldl_cons, List.length_cons, ih]

theorem arun_eq_run :
    ∀ (ts : List TransformComponent) (ns : List Node)
      (cache : Option IngestionCache) (coll : Option String),
    (∀ t ∈ ts, t.acall = t.call) →
    arunTransformations ns ts cache coll = runTransformations ns ts cache coll := by
  intro ts
  induction ts with
  | nil => intro ns cache coll _; rfl
  | cons t rest ih =>
    intro ns cache coll h
    have ht : t.acall = t.call := h t (List.mem_cons_self t rest)
    have hrest : ∀ x ∈ rest, x.acall = x.call := fun x hx => h x (List.mem_cons_of_mem _ hx)
    simp only [arunTransformations, runTransformations, ht]
    cases cache with
    | none => rw [ih _ _ _ hrest]
    | some c =>
      rcases hc : c.get (getTransformationHash ns t) coll with _ | cached
      · simp [hc, ih _ _ _ hrest]
      · simp [hc, ih _ _ _ hrest]

theorem fallible_run_append :
    ∀ (l1 l2 : List Fallible.TransformComponent) (ns : List Node)
      (cache : Option Fallible.FallibleCache) (coll : Option String),
    Fallible.runTransformations ns (l1 ++ l2) cache coll =
      match Fallible.runTransformations ns l1 cache coll with
      | (Except.ok b, c') => Fallible.runTransformations b l2 c' coll
      | (Except.error e, c') => (Except.error e, c') := by
  intro l1
  induction l1 with
  | nil => intro l2 ns cache coll; rfl
  | cons t rest ih =>
    intro l2 ns cache coll
    simp only [List.cons_append, Fallible.runTransformations]
    cases cache with
    | none =>
      rcases ht : t.call ns with e | out
      · simp [ht]
      · simp [ht, ih]
    | some c =>
      rcases hg : c.get (Fallible.getTransformationHash ns t) coll with e | oc
      · simp [hg]
      · rcases oc with _ | cached
        · rcases ht : t.call ns with e | out
          · simp [hg, ht]
          · rcases hp : c.put (Fallible.getTransformationHash ns t) out coll with e | c2
            · simp [hg, ht, hp]
            · simp [hg, ht, hp, ih]
        · simp [hg, ih]

/-! ## Concrete fixtures used by the witnesses -/

/-- A record with no embedding. -/
def wNode : Node := ⟨"a", "hello", [], none⟩

/-- A record with a populated embedding. -/
def wNodeEmb : Node := ⟨"b", "world", [], some [1]⟩

/-- An identity transformation whose async form is the same function. -/
def wTrans : TransformComponent := ⟨"cfg", fun ns => ns, fun ns => ns⟩

/-- A cache holding a hit for `[wNode]` under `wTrans`. -/
def wCacheHit : IngestionCache :=
  IngestionCache.put ⟨[]⟩ (getTransformationHash [wNode] wTrans) [wNodeEmb] none

/-- The cache state after one miss of `wTrans` on `[wNode]`. -/
def wCache1 : IngestionCache :=
  IngestionCache.put ⟨[]⟩ (getTransformationHash [wNode] wTrans) [wNode] none

/-! ## Claims -/

/-- C1: the sequential executor `run_transformations` applies the
transformations strictly in list order; with an empty transformation list the
input batch is returned unchanged (and the cache is untouched); at each step
with a cache supplied it fingerprints the current batch with that
transformation, on a hit replaces the batch with the cached one and skips
applying that transformation only (the tail continues from the cached batch,
so the next step is fingerprinted from the cached output), and on a miss
applies the transformation, stores the result under the fingerprint, and
continues from that result. -/
theorem claim_C1_sequential_executor (ns cached : List Node) (t : TransformComponent)
    (ts : List TransformComponent) (c : IngestionCache) (cache : Option IngestionCache)
    (coll : Option String) :
    (runTransformations ns [] cache coll = (ns, cache, 0)) ∧
    (c.get (getTransformationHash ns t) coll = some cached →
      runTransformations ns (t :: ts) (some c) coll =
        runTransformations cached ts (some c) coll) ∧
    (c.get (getTransformationHash ns t) coll = none →
      runTransformations ns (t :: ts) (some c) coll =
        (fun r => (r.1, r.2.1, r.2.2 + 1))
          (runTransformations (t.call ns) ts
            (some (c.put (getTransformationHash ns t) (t.call ns) coll)) coll)) := by
  refine ⟨rfl, fun h => ?_, fun h => ?_⟩
  · simp only [runTransformations, h]
  · simp only [runTransformations, h]

/-- Witness for C1 at concrete inputs: a cache hit (the cached batch replaces
the input and the step is skipped) and a cache miss on the empty cache (the
transformation is applied and stored). -/
theorem claim_C1_witness :
    (IngestionCache.get wCacheHit (getTransformationHash [wNode] wTrans) none = some [wNodeEmb] ∧
      runTransformations [wNode] [wTrans] (some wCacheHit) none =
        runTransformations [wNodeEmb] [] (some wCacheHit) none) ∧
    (IngestionCache.get ⟨[]⟩ (getTransformationHash [wNode] wTrans) none = none ∧
      runTransformations [wNode] [wTrans] (some ⟨[]⟩) none =
        (fun r => (r.1, r.2.1, r.2.2 + 1))
          (runTransformations (wTrans.call [wNode]) []
            (some (IngestionCache.put ⟨[]⟩ (getTransformationHash [wNode] wTrans)
              (wTrans.call [wNode]) none)) none)) := by
  have hhit : IngestionCache.get wCacheHit (getTransformationHash [wNode] wTrans) none
      = some [wNodeEmb] := IngestionCache.get_put_same _ _ _ _
  have hmiss : IngestionCache.get ⟨[]⟩ (getTransformationHash [wNode] wTrans) none = none := rfl
  exact ⟨⟨hhit, (claim_C1_sequential_executor [wNode] [wNodeEmb] wTrans [] wCacheHit none none).2.1 hhit⟩,
         ⟨hmiss, (claim_C1_sequential_executor [wNode] [wNodeEmb] wTrans [] ⟨[]⟩ none none).2.2 hmiss⟩⟩

/-- C2: `get_transformation_hash` is the hex digest of the SHA-256 hash of the
concatenation of the records' contents-with-metadata (in batch order) and the
transformation's cleaned configuration string; it is a deterministic function
of exactly those two inputs; and on the empty batch it is the hash of the
cleaned configuration string alone. -/
theorem claim_C2_fingerprint_deterministic (ns1 ns2 : List Node)
    (t1 t2 : TransformComponent) :
    (getTransformationHash ns1 t1 =
      sha256hex (utf8Encode (nodesStr ns1 ++ removeUnstableValues t1.configStr))) ∧
    (ns1.map (fun n => n.getContentAll) = ns2.map (fun n => n.getContentAll) →
      removeUnstableValues t1.configStr = removeUnstableValues t2.configStr →
      getTransformationHash ns1 t1 = getTransformationHash ns2 t2) ∧
    (getTransformationHash [] t1 = sha256hex (utf8Encode (removeUnstableValues t1.configStr))) := by
  refine ⟨rfl, fun h1 h2 => ?_, rfl⟩
  simp only [getTransformationHash, nodesStr]
  rw [h1, h2]

/-- Witness for C2: determinism applied at a concrete batch and
transformation, with both hypotheses discharged by `rfl`. -/
theorem claim_C2_witness :
    ([wNode].map (fun n => n.getContentAll) = [wNode].map (fun n => n.getContentAll)) ∧
    removeUnstableValues wTrans.configStr = removeUnstableValues wTrans.configStr ∧
    getTransformationHash [wNode] wTrans = getTransformationHash [wNode] wTrans :=
  ⟨rfl, rfl, (claim_C2_fingerprint_deterministic [wNode] [wNode] wTrans wTrans).2.1 rfl rfl⟩

/-- Prefix of the configuration strings used by the C3 witness. -/
def wPre : List Char := ['k', ':', ' ', '1', ',', ' ']

/-- Name part of the first witness token. -/
def wBody1 : List Char := "__main__.Test object".data

/-- Address part of the first witness token. -/
def wAddr1 : List Char := "7fb9f3793f50".data

/-- Name part of the second witness token. -/
def wBody2 : List Char := "function test_fn".data

/-- Address part of the second witness token. -/
def wAddr2 : List Char := "7fb9f37a8900".data

/-- Suffix of the configuration strings used by the C3 witness. -/
def wPost : List Char := ", mode: fast".data

/-- First witness transformation for C3, configuration containing a token. -/
def wTrans1 : TransformComponent :=
  ⟨⟨wPre ++ '<' :: (wBody1 ++ (at0xChars ++ (wAddr1 ++ '>' :: wPost)))⟩,
   fun ns => ns, fun ns => ns⟩

/-- Second witness transformation for C3, same configuration except for its
token. -/
def wTrans2 : TransformComponent :=
  ⟨⟨wPre ++ '<' :: (wBody2 ++ (at0xChars ++ (wAddr2 ++ '>' :: wPost)))⟩,
   fun ns => ns, fun ns => ns⟩

/-- C3: two transformation configurations whose serialized strings differ only
in an embedded opaque runtime-object-reference token `<NAME at 0xADDR>` (a
nonempty `NAME` over the pattern's character class and a nonempty lowercase
hex `ADDR`, embedded after a `<`-free prefix and before a common suffix) have
equal fingerprints for every batch: `remove_unstable_values` deletes the
whole token while keeping the surrounding concrete field values (the prefix is
preserved verbatim and the suffix is processed independently of the token). -/
theorem claim_C3_unstable_token_stripping (ns : List Node) (t1 t2 : TransformComponent)
    (pre body1 addr1 body2 addr2 post : List Char)
    (hpre : ∀ c ∈ pre, c ≠ '<')
    (hb1 : body1 ≠ []) (hbc1 : ∀ c ∈ body1, isClassChar c = true)
    (ha1 : addr1 ≠ []) (hac1 : ∀ c ∈ addr1, isHexTail c = true)
    (hb2 : body2 ≠ []) (hbc2 : ∀ c ∈ body2, isClassChar c = true)
    (ha2 : addr2 ≠ []) (hac2 : ∀ c ∈ addr2, isHexTail c = true)
    (hc1 : t1.configStr.data = pre ++ '<' :: (body1 ++ (at0xChars ++ (addr1 ++ '>' :: post))))
    (hc2 : t2.configStr.data = pre ++ '<' :: (body2 ++ (at0xChars ++ (addr2 ++ '>' :: post)))) :
    removeUnstableValues t1.configStr = ⟨pre ++ subScan post⟩ ∧
    getTransformationHash ns t1 = getTransformationHash ns t2 := by
  have e1 : removeUnstableValues t1.configStr = ⟨pre ++ subScan post⟩ := by
    unfold removeUnstableValues
    rw [hc1, subScan_token pre body1 addr1 post hpre hb1 hbc1 ha1 hac1]
  have e2 : removeUnstableValues t2.configStr = ⟨pre ++ subScan post⟩ := by
    unfold removeUnstableValues
    rw [hc2, subScan_token pre body2 addr2 post hpre hb2 hbc2 ha2 hac2]
  refine ⟨e1, ?_⟩
  simp only [getTransformationHash]
  rw [e1, e2]

/-- Witness for C3: two concrete configurations that differ only in their
embedded `<... object at 0x...>` / `<function ... at 0x...>` token hash
identically, and the cleaned string keeps the surrounding fields. -/
theorem claim_C3_witness :
    (∀ c ∈ wPre, c ≠ '<') ∧
    removeUnstableValues wTrans1.configStr = ⟨wPre ++ subScan wPost⟩ ∧
    getTransformationHash [wNode] wTrans1 = getTransformationHash [wNode] wTrans2 := by
  have h := claim_C3_unstable_token_stripping [wNode] wTrans1 wTrans2
    wPre wBody1 wAddr1 wBody2 wAddr2 wPost
    (by decide) (by decide) (by decide) (by decide) (by decide)
    (by decide) (by decide) (by decide) (by decide) rfl rfl
  exact ⟨by decide, h.1, h.2⟩

/-- C4: with `cache = None` the sequential executor applies every
transformation exactly once in list order (the apply counter equals the list
length and the output is the left fold of the applications); no cache state
is consulted or produced, so repeated runs behave identically. -/
theorem claim_C4_cache_bypass (ns : List Node) (ts : List TransformComponent)
    (coll : Option String) :
    runTransformations ns ts none coll =
      (ts.foldl (fun b t => t.call b) ns, none, ts.length) :=
  run_no_cache ts ns coll

/-- C5: running the sequential executor twice with the same cache and the same
batch and transformation list yields the identical output batch and cache, and
the second run applies no transformation at all (its apply counter is zero:
every step is a cache hit). -/
theorem claim_C5_cache_idempotence (ts : List TransformComponent) (ns : List Node)
    (c : IngestionCache) (coll : Option String) (out : List Node)
    (c' : IngestionCache) (m : Nat)
    (h : runTransformations ns ts (some c) coll = (out, some c', m)) :
    runTransformations ns ts (some c') coll = (out, some c', 0) :=
  run_twice_cached ts ns c coll out c' m h

/-- Witness for C5: a first run from the empty cache applies the single
transformation once; the second run from the resulting cache is all hits with
zero applications and the same output. -/
theorem claim_C5_witness :
    runTransformations [wNode] [wTrans] (some ⟨[]⟩) none = ([wNode], some wCache1, 1) ∧
    runTransformations [wNode] [wTrans] (some wCache1) none = ([wNode], some wCache1, 0) := by
  have h1 : runTransformations [wNode] [wTrans] (some ⟨[]⟩) none
      = ([wNode], some wCache1, 1) := rfl
  exact ⟨h1, claim_C5_cache_idempotence [wTrans] [wNode] ⟨[]⟩ none [wNode] wCache1 1 h1⟩

/-- C6: when every stage's `acall` has the same observable effect as its
blocking `call`, the concurrent executor `arun_transformations` produces
exactly the same output batch, final cache state and apply count as the
sequential `run_transformations` on the same input batch and cache, applying
the stages in the same strict list order. -/
theorem claim_C6_concurrent_equivalence (ns : List Node) (ts : List TransformComponent)
    (cache : Option IngestionCache) (coll : Option String)
    (h : ∀ t ∈ ts, t.acall = t.call) :
    arunTransformations ns ts cache coll = runTransformations ns ts cache coll :=
  arun_eq_run ts ns cache coll h

/-- Witness for C6: the concurrent and sequential executors agree on a
concrete batch, transformation and empty cache. -/
theorem claim_C6_witness :
    (∀ t ∈ [wTrans], t.acall = t.call) ∧
    arunTransformations [wNode] [wTrans] (some ⟨[]⟩) none =
      runTransformations [wNode] [wTrans] (some ⟨[]⟩) none := by
  have h : ∀ t ∈ [wTrans], t.acall = t.call := by
    intro t ht
    rw [List.mem_singleton] at ht
    subst ht
    rfl
  exact ⟨h, claim_C6_concurrent_equivalence [wNode] [wTrans] (some ⟨[]⟩) none h⟩

/-- A cache whose backend is down for both operations. -/
def wBadCache : Fallible.FallibleCache := ⟨[], false, false⟩

/-- A cache whose backend answers `get` but fails `put`. -/
def wPutBadCache : Fallible.FallibleCache := ⟨[], true, false⟩

/-- A fully available fallible cache. -/
def wOkCache : Fallible.FallibleCache := ⟨[], true, true⟩

/-- An identity stage in the fallible setting. -/
def wFTrans : Fallible.TransformComponent := ⟨"cfg", fun ns => Except.ok ns⟩

/-- A stage that raises on application. -/
def wFTransFail : Fallible.TransformComponent :=
  ⟨"boom", fun _ => Except.error (Fallible.PipelineError.transformError "boom")⟩

/-- Counterexample to C7: `run_transformations` contains no handler for cache
failures, so with a backend that raises `CacheUnavailable` on `get` the
executor does not treat the failure as a miss and recompute — the error
propagates to the caller, and the run's outcome differs from the cache-free
run on the same input, contradicting the claim at this concrete input. -/
theorem claim_C7_counterexample :
    Fallible.runTransformations [wNode] [wFTrans] (some wBadCache) none
      = (Except.error Fallible.PipelineError.cacheUnavailable, some wBadCache) ∧
    Fallible.runTransformations [wNode] [wFTrans] none none = (Except.ok [wNode], none) ∧
    (Fallible.runTransformations [wNode] [wFTrans] (some wBadCache) none).1 ≠
      (Fallible.runTransformations [wNode] [wFTrans] none none).1 := by
  refine ⟨rfl, rfl, ?_⟩
  intro hco
  rw [show (Fallible.runTransformations [wNode] [wFTrans] (some wBadCache) none).1
      = Except.error Fallible.PipelineError.cacheUnavailable from rfl] at hco
  rw [show (Fallible.runTransformations [wNode] [wFTrans] none none).1
      = Except.ok [wNode] from rfl] at hco
  exact Except.noConfusion hco

/-- C7 (amended): when a cache backend operation raises `CacheUnavailable`
during `run_transformations`, the executor neither treats a failed `get` as a
miss nor swallows a failed `put`: the error propagates unmodified to the
caller (the source's loop has no exception handler), with the cache left in
its pre-failure state. -/
theorem claim_C7_cache_failure_propagates (ns out : List Node)
    (t : Fallible.TransformComponent) (ts : List Fallible.TransformComponent)
    (c : Fallible.FallibleCache) (coll : Option String) (e : Fallible.PipelineError) :
    (c.get (Fallible.getTransformationHash ns t) coll = Except.error e →
      Fallible.runTransformations ns (t :: ts) (some c) coll = (Except.error e, some c)) ∧
    (c.get (Fallible.getTransformationHash ns t) coll = Except.ok none →
      t.call ns = Except.ok out →
      c.put (Fallible.getTransformationHash ns t) out coll = Except.error e →
      Fallible.runTransformations ns (t :: ts) (some c) coll = (Except.error e, some c)) := by
  constructor
  · intro hg
    simp only [Fallible.runTransformations, hg]
  · intro hg ht hp
    simp only [Fallible.runTransformations, hg, ht, hp]

/-- Witness for the amended C7: a `get` failure and a `put` failure both
propagate at concrete inputs, leaving the cache state untouched. -/
theorem claim_C7_witness :
    (Fallible.FallibleCache.get wBadCache
        (Fallible.getTransformationHash [wNode] wFTrans) none
        = Except.error Fallible.PipelineError.cacheUnavailable ∧
      Fallible.runTransformations [wNode] [wFTrans] (some wBadCache) none
        = (Except.error Fallible.PipelineError.cacheUnavailable, some wBadCache)) ∧
    (Fallible.FallibleCache.get wPutBadCache
        (Fallible.getTransformationHash [wNode] wFTrans) none = Except.ok none ∧
      wFTrans.call [wNode] = Except.ok [wNode] ∧
      Fallible.FallibleCache.put wPutBadCache
        (Fallible.getTransformationHash [wNode] wFTrans) [wNode] none
        = Except.error Fallible.PipelineError.cacheUnavailable ∧
      Fallible.runTransformations [wNode] [wFTrans] (some wPutBadCache) none
        = (Except.error Fallible.PipelineError.cacheUnavailable, some wPutBadCache)) :=
  ⟨⟨rfl, (claim_C7_cache_failure_propagates [wNode] [wNode] wFTrans [] wBadCache none
      Fallible.PipelineError.cacheUnavailable).1 rfl⟩,
   ⟨rfl, rfl, rfl, (claim_C7_cache_failure_propagates [wNode] [wNode] wFTrans [] wPutBadCache none
      Fallible.PipelineError.cacheUnavailable).2 rfl rfl rfl⟩⟩

/-- C8: if the transformation at step `i` (after a successful prefix of the
list) raises during `run_transformations`, the error is propagated unmodified
to the caller, no retry is attempted (the executor performs exactly the one
failing application), and the cache is left exactly as it was before step `i`
— in particular nothing is stored under step `i`'s fingerprint. -/
theorem claim_C8_transform_failure_atomic (ns b : List Node)
    (pre rest : List Fallible.TransformComponent) (t : Fallible.TransformComponent)
    (c0 ci : Fallible.FallibleCache) (coll : Option String) (e : Fallible.PipelineError)
    (hpre : Fallible.runTransformations ns pre (some c0) coll = (Except.ok b, some ci))
    (hmiss : ci.get (Fallible.getTransformationHash b t) coll = Except.ok none)
    (hfail : t.call b = Except.error e) :
    Fallible.runTransformations ns (pre ++ t :: rest) (some c0) coll
      = (Except.error e, some ci) := by
  rw [fallible_run_append pre (t :: rest) ns (some c0) coll, hpre]
  simp only [Fallible.runTransformations, hmiss, hfail]

/-- Witness for C8: a failing stage right after the empty prefix propagates
its error and leaves the cache in its pre-step state. -/
theorem claim_C8_witness :
    Fallible.runTransformations [wNode] [] (some wOkCache) none
      = (Except.ok [wNode], some wOkCache) ∧
    Fallible.FallibleCache.get wOkCache
      (Fallible.getTransformationHash [wNode] wFTransFail) none = Except.ok none ∧
    wFTransFail.call [wNode] = Except.error (Fallible.PipelineError.transformError "boom") ∧
    Fallible.runTransformations [wNode] ([] ++ wFTransFail :: []) (some wOkCache) none
      = (Except.error (Fallible.PipelineError.transformError "boom"), some wOkCache) :=
  ⟨rfl, rfl, rfl,
    claim_C8_transform_failure_atomic [wNode] [wNode] [] [] wFTransFail wOkCache wOkCache none
      (Fallible.PipelineError.transformError "boom") rfl rfl rfl⟩

/-- Concrete pipeline for the C9 witness: one identity stage, an empty vector
store, and caching disabled. -/
def wPipe : IngestionPipeline := ⟨[wTrans], none, none, some ⟨[]⟩, ⟨[]⟩, true⟩

/-- C9: with a configured vector store, `IngestionPipeline.run` (and `arun`)
forwards to the sink's `add` (`async_add`) exactly the records of the final
batch whose embedding is populated, in batch order (the `filter` keeps order
and drops embedding-less records silently), while the full final batch —
including the dropped records — is returned to the caller. -/
theorem claim_C9_sink_filtering (p : IngestionPipeline) (vs : VectorStore)
    (docs nds : Option (List Node)) (coll : Option String)
    (hvs : p.vector_store = some vs) :
    ((p.run docs nds coll).1 =
        (runTransformations (pipelineInputNodes p docs nds) p.transformations
          (if p.disable_cache then none else some p.cache) coll).1 ∧
      (p.run docs nds coll).2.vector_store =
        some (vs.add ((p.run docs nds coll).1.filter fun n => n.embedding.isSome))) ∧
    ((p.arun docs nds coll).1 =
        (arunTransformations (pipelineInputNodes p docs nds) p.transformations
          (if p.disable_cache then none else some p.cache) coll).1 ∧
      (p.arun docs nds coll).2.vector_store =
        some (vs.add ((p.arun docs nds coll).1.filter fun n => n.embedding.isSome))) := by
  refine ⟨⟨rfl, ?_⟩, ⟨rfl, ?_⟩⟩
  · rcases hr2 : (runTransformations (pipelineInputNodes p docs nds) p.transformations
        (if p.disable_cache then none else some p.cache) coll).2.1 with _ | c
    · simp [IngestionPipeline.run, hr2, hvs]
    · simp [IngestionPipeline.run, hr2, hvs]
  · rcases hr2 : (arunTransformations (pipelineInputNodes p docs nds) p.transformations
        (if p.disable_cache then none else some p.cache) coll).2.1 with _ | c
    · simp [IngestionPipeline.arun, hr2, hvs]
    · simp [IngestionPipeline.arun, hr2, hvs]

/-- Witness for C9: a two-record batch, one record with an embedding and one
without; only the embedded record reaches the store, and both are returned. -/
theorem claim_C9_witness :
    wPipe.vector_store = some (⟨[]⟩ : VectorStore) ∧
    (wPipe.run (some [wNode, wNodeEmb]) none none).1 = [wNode, wNodeEmb] ∧
    (wPipe.run (some [wNode, wNodeEmb]) none none).2.vector_store =
      some (VectorStore.add ⟨[]⟩
        (((wPipe.run (some [wNode, wNodeEmb]) none none).1).filter fun n => n.embedding.isSome)) ∧
    (wPipe.run (some [wNode, wNodeEmb]) none none).2.vector_store = some ⟨[wNodeEmb]⟩ :=
  ⟨rfl, rfl,
   ((claim_C9_sink_filtering wPipe ⟨[]⟩ (some [wNode, wNodeEmb]) none none rfl).1).2,
   rfl⟩

/-- C10: in `from_pipeline_name` the guards `len(projects) < 0` and
`len(pipelines) < 0` are false for every list — a `Nat` length is never
negative — so the two `ValueError` branches are unreachable; when the
platform returns an empty list the function instead fails with the
`IndexError` of indexing `[0]` into the empty list. -/
theorem claim_C10_unreachable_guards {α β : Type} (projects : List α) (pipelines : List β) :
    (decide (projects.length < 0) = false ∧ decide (pipelines.length < 0) = false) ∧
    (∀ msg, fromPipelineNameSelect projects pipelines ≠ Except.error (PyError.valueError msg)) ∧
    (projects = [] →
      fromPipelineNameSelect projects pipelines = Except.error PyError.indexError) ∧
    (pipelines = [] → projects ≠ [] →
      fromPipelineNameSelect projects pipelines = Except.error PyError.indexError) := by
  refine ⟨⟨by simp, by simp⟩, ?_, ?_, ?_⟩
  · intro msg
    cases projects with
    | nil => simp [fromPipelineNameSelect]
    | cons p ps =>
      cases pipelines with
      | nil => simp [fromPipelineNameSelect]
      | cons q qs => simp [fromPipelineNameSelect]
  · intro h
    subst h
    simp [fromPipelineNameSelect]
  · intro h1 h2
    subst h1
    cases projects with
    | nil => exact absurd rfl h2
    | cons p ps => simp [fromPipelineNameSelect]

/-- Witness for C10: the empty-projects and empty-pipelines cases both end in
`IndexError`, never in the `ValueError` branches. -/
theorem claim_C10_witness :
    fromPipelineNameSelect ([] : List Nat) ([] : List Nat) = Except.error PyError.indexError ∧
    fromPipelineNameSelect [1] ([] : List Nat) = Except.error PyError.indexError ∧
    fromPipelineNameSelect ([] : List Nat) ([] : List Nat)
      ≠ Except.error (PyError.valueError "Project not found") :=
  ⟨(claim_C10_unreachable_guards ([] : List Nat) ([] : List Nat)).2.2.1 rfl,
   (claim_C10_unreachable_guards [1] ([] : List Nat)).2.2.2 rfl (by simp),
   (claim_C10_unreachable_guards ([] : List Nat) ([] : List Nat)).2.1 "Project not found"⟩
